import Mathlib

/-!
Verification model of `src/proxy_scrapergit.py` (proxy scraper).

The Python program scans files hosted in GitHub repositories for proxy
tokens of the form `A.B.C.D:P`.  This file gives a shallow embedding of its
pure core:

* `find_proxies_in_text` models `PROXY_REGEX.findall` (line 18/31-33 of the
  source), i.e. Python `re` backtracking semantics for the pattern
  `\b(?:(?:25[0-5]|2[0-4][0-9]|[01]?[0-9][0-9]?)\.){3}(?:25[0-5]|2[0-4][0-9]|[01]?[0-9][0-9]?):\d{1,5}\b`
  restricted to ASCII texts (the ASCII fragments of `\d`, `\w` and `\b`).
* `parse_json_recursively` / `parse_xml_recursively` model the structured
  traversals (lines 35-51).
* `fetch_parse_body` models the extension dispatch of
  `fetch_and_parse_file` (lines 62-79); the outcomes of the external
  library calls `json.loads` / `ET.fromstring` and of the HTTP layer are
  passed in as explicit parameters.
* `get_default_branch` / `get_files_from_repo` model repository resolution
  (lines 84-137), with Python exceptions embedded as `Except.error`.
* the aggregation and shutdown behaviour of `process_repository` and
  `main` (lines 139-218) is modelled over `Finset String`.
-/

namespace PGScraper

/-! ### Character classes

ASCII models of Python `re` classes: `\d` = `[0-9]`, `\w` = `[A-Za-z0-9_]`.
Codes: '0' = 48, '9' = 57, 'A' = 65, 'Z' = 90, 'a' = 97, 'z' = 122, '_' = 95.
-/

def isDigitC (c : Char) : Bool := decide (48 ≤ c.toNat ∧ c.toNat ≤ 57)

def isWordC (c : Char) : Bool :=
  decide ((65 ≤ c.toNat ∧ c.toNat ≤ 90) ∨ (97 ≤ c.toNat ∧ c.toNat ≤ 122) ∨
    (48 ≤ c.toNat ∧ c.toNat ≤ 57) ∨ c.toNat = 95)

def digitVal (c : Char) : Nat := c.toNat - 48

/-- Decimal value of a digit string. -/
def decVal (s : List Char) : Nat := s.foldl (fun n c => 10 * n + digitVal c) 0

/-- The character at index `i` has code `n`. -/
def chIs (cs : List Char) (i : Nat) (n : Nat) : Bool :=
  match cs[i]? with
  | some c => decide (c.toNat = n)
  | none => false

/-- The character at index `i` has code in `[lo, hi]`. -/
def chInRange (cs : List Char) (i : Nat) (lo hi : Nat) : Bool :=
  match cs[i]? with
  | some c => decide (lo ≤ c.toNat ∧ c.toNat ≤ hi)
  | none => false

/-! ### The octet alternation `25[0-5]|2[0-4][0-9]|[01]?[0-9][0-9]?`

Python `re` tries the alternatives left to right; inside the third
alternative the optional pieces are tried present-first (greedy).  The
candidate match lengths at a given position, in engine order, are:
-/

/-- Alternative `25[0-5]` ('2' = 50, '5' = 53). -/
def octetAlt1 (cs : List Char) : Bool :=
  chIs cs 0 50 && chIs cs 1 53 && chInRange cs 2 48 53

/-- Alternative `2[0-4][0-9]` ('0' = 48, '4' = 52). -/
def octetAlt2 (cs : List Char) : Bool :=
  chIs cs 0 50 && chInRange cs 1 48 52 && chInRange cs 2 48 57

/-- Alternative piece `[01][0-9][0-9]` ('0' = 48, '1' = 49). -/
def octetAlt3a (cs : List Char) : Bool :=
  chInRange cs 0 48 49 && chInRange cs 1 48 57 && chInRange cs 2 48 57

/-- Alternative piece `[01][0-9]` with the trailing `[0-9]?` empty. -/
def octetAlt3b (cs : List Char) : Bool :=
  chInRange cs 0 48 49 && chInRange cs 1 48 57

/-- Alternative piece `[0-9][0-9]` with the leading `[01]?` empty. -/
def octetAlt3c (cs : List Char) : Bool :=
  chInRange cs 0 48 57 && chInRange cs 1 48 57

/-- Alternative piece `[0-9]` with both optional pieces empty. -/
def octetAlt3d (cs : List Char) : Bool :=
  chInRange cs 0 48 57

/-- Candidate octet match lengths at the start of `cs`, in backtracking
order. -/
def octetCands (cs : List Char) : List Nat :=
  (if octetAlt1 cs then [3] else []) ++
  (if octetAlt2 cs then [3] else []) ++
  (if octetAlt3a cs then [3] else []) ++
  (if octetAlt3b cs then [2] else []) ++
  (if octetAlt3c cs then [2] else []) ++
  (if octetAlt3d cs then [1] else [])

/-! ### The port `\d{1,5}` (greedy) and the trailing `\b` -/

/-- Length of the leading run of digits. -/
def digitRunLen : List Char → Nat
  | [] => 0
  | c :: r => if isDigitC c then digitRunLen r + 1 else 0

/-- The list `[n, n-1, ..., 1]`. -/
def descFrom : Nat → List Nat
  | 0 => []
  | n + 1 => (n + 1) :: descFrom n

/-- Candidate port lengths, longest (greedy) first. -/
def portCands (cs : List Char) : List Nat :=
  descFrom (min (digitRunLen cs) 5)

/-- Trailing `\b`: the last matched character is a digit (a word char), so
the boundary holds iff the next character is absent or a non-word char. -/
def boundaryAfter (cs : List Char) : Bool :=
  match cs with
  | [] => true
  | c :: _ => !isWordC c

/-- Leading `\b`: the first matched character must be a digit (a word
char), so the boundary holds iff the previous character is absent or a
non-word char. -/
def prevBoundaryOk (prev : Option Char) : Bool :=
  match prev with
  | none => true
  | some c => !isWordC c

def headIs (cs : List Char) (c : Char) : Bool :=
  match cs with
  | [] => false
  | x :: _ => x == c

/-- First success of `f` over a list of candidates (backtracking order). -/
def firstSome {α β : Type} (f : α → Option β) : List α → Option β
  | [] => none
  | a :: l =>
    match f a with
    | some b => some b
    | none => firstSome f l

/-! ### The full pattern, as staged backtracking -/

/-- A successful match of the whole pattern, split into its five digit
groups. -/
structure ProxyMatch where
  o1 : List Char
  o2 : List Char
  o3 : List Char
  o4 : List Char
  prt : List Char
deriving DecidableEq, Repr

/-- The characters consumed by a match. -/
def matchChars (m : ProxyMatch) : List Char :=
  m.o1 ++ '.' :: (m.o2 ++ '.' :: (m.o3 ++ '.' :: (m.o4 ++ ':' :: m.prt)))

/-- Match `\d{1,5}\b` at the start of `cs`, returning the port digits. -/
def matchPort (cs : List Char) : Option (List Char) :=
  firstSome (fun lp =>
    if boundaryAfter (cs.drop lp) then some (cs.take lp) else none)
    (portCands cs)

/-- Match `octet:\d{1,5}\b` at the start of `cs`. -/
def matchO4 (cs : List Char) : Option (List Char × List Char) :=
  firstSome (fun l =>
    if headIs (cs.drop l) ':' then
      match matchPort (cs.drop (l + 1)) with
      | some prt => some (cs.take l, prt)
      | none => none
    else none)
    (octetCands cs)

/-- Match `octet.octet:\d{1,5}\b` at the start of `cs`. -/
def matchO3 (cs : List Char) : Option (List Char × List Char × List Char) :=
  firstSome (fun l =>
    if headIs (cs.drop l) '.' then
      match matchO4 (cs.drop (l + 1)) with
      | some r => some (cs.take l, r)
      | none => none
    else none)
    (octetCands cs)

/-- Match `octet.octet.octet:\d{1,5}\b` at the start of `cs`. -/
def matchO2 (cs : List Char) :
    Option (List Char × List Char × List Char × List Char) :=
  firstSome (fun l =>
    if headIs (cs.drop l) '.' then
      match matchO3 (cs.drop (l + 1)) with
      | some r => some (cs.take l, r)
      | none => none
    else none)
    (octetCands cs)

/-- Match the whole pattern (minus the leading `\b`) at the start of
`cs`. -/
def matchAt (cs : List Char) : Option ProxyMatch :=
  firstSome (fun l =>
    if headIs (cs.drop l) '.' then
      match matchO2 (cs.drop (l + 1)) with
      | some (b, c, d, p) => some ⟨cs.take l, b, c, d, p⟩
      | none => none
    else none)
    (octetCands cs)

/-- Model of the `re.findall` scanning loop: try each position left to right; on a
match, continue scanning at the end of the match.  `prev` is the character
just before the current position (for `\b`); `fuel` bounds the recursion
(one unit per position tried). -/
def scanLoop : Nat → Option Char → List Char → List (List Char)
  | 0, _, _ => []
  | _ + 1, _, [] => []
  | fuel + 1, prev, c :: rest =>
    if prevBoundaryOk prev then
      match matchAt (c :: rest) with
      | some m =>
        matchChars m ::
          scanLoop fuel (matchChars m).getLast? ((c :: rest).drop (matchChars m).length)
      | none => scanLoop fuel (some c) rest
    else scanLoop fuel (some c) rest

/-- Model of `find_proxies_in_text` (source lines 31-33):
`PROXY_REGEX.findall(text)`. -/
def find_proxies_in_text (text : String) : List String :=
  (scanLoop (text.data.length + 1) none text.data).map (fun l => String.mk l)

/-- A well-formed octet group: what the alternation
`25[0-5]|2[0-4][0-9]|[01]?[0-9][0-9]?` can consume — a digit string of
length 1-3 whose decimal value is at most 255 (leading zeroes allowed). -/
def octetOk (s : List Char) : Prop :=
  s ≠ [] ∧ s.length ≤ 3 ∧ (∀ c ∈ s, isDigitC c = true) ∧ decVal s ≤ 255

instance (s : List Char) : Decidable (octetOk s) := by
  unfold octetOk; infer_instance

/-- A well-formed port group: what `\d{1,5}` can consume — a digit string
of length 1-5 (any value, including `0`). -/
def portOk (p : List Char) : Prop :=
  p ≠ [] ∧ p.length ≤ 5 ∧ (∀ c ∈ p, isDigitC c = true)

instance (p : List Char) : Decidable (portOk p) := by
  unfold portOk; infer_instance

/-- The text after a match candidate allows the trailing `\b`: it is empty
or starts with a non-word character. -/
def afterOk (q : List Char) : Prop :=
  q = [] ∨ ∃ c t, q = c :: t ∧ isWordC c = false

instance (q : List Char) : Decidable (afterOk q) := by
  unfold afterOk
  cases q with
  | nil => exact .isTrue (Or.inl rfl)
  | cons c t =>
    cases h : isWordC c with
    | true =>
      refine .isFalse ?_
      rintro (h1 | ⟨c2, t2, heq, hw⟩)
      · exact List.noConfusion h1
      · cases heq; rw [h] at hw; cases hw
    | false => exact .isTrue (Or.inr ⟨c, t, rfl, h⟩)

/-! ### JSON values and `parse_json_recursively` (source lines 35-44)

Python's `json.loads` produces dicts, lists, strings, numbers, booleans
and `None`; `parse_json_recursively` recurses into dict values (in
insertion order) and list items, and scans string leaves.  Numbers,
booleans and `None` contribute nothing.
-/

inductive PyJson where
  | obj (fields : List (String × PyJson))
  | arr (items : List PyJson)
  | str (s : String)
  | num (n : Int)
  | bool (b : Bool)
  | null

mutual

def parse_json_recursively : PyJson → List String
  | .obj fields => parse_json_fields fields
  | .arr items => parse_json_items items
  | .str s => find_proxies_in_text s
  | .num _ => []
  | .bool _ => []
  | .null => []

def parse_json_fields : List (String × PyJson) → List String
  | [] => []
  | kv :: rest => parse_json_recursively kv.2 ++ parse_json_fields rest

def parse_json_items : List PyJson → List String
  | [] => []
  | v :: rest => parse_json_recursively v ++ parse_json_items rest

end

/-! ### XML elements and `parse_xml_recursively` (source lines 46-51)

An `xml.etree.ElementTree` element has a tag, attributes, a `.text` field
(the text before its first child), children in document order, and a
`.tail` field (the text after its own closing tag, inside its parent).
The source scans `element.text` when it is truthy (non-`None`, non-empty)
and recurses into children; it touches neither attributes nor tails.
-/

inductive XmlElement where
  | elem (tag : String) (attrs : List (String × String)) (text : Option String)
      (children : List XmlElement) (tail : Option String)

mutual

def parse_xml_recursively : XmlElement → List String
  | .elem _ _ text children _ =>
    (match text with
     | some t => if t = "" then [] else find_proxies_in_text t
     | none => []) ++ parse_xml_children children

def parse_xml_children : List XmlElement → List String
  | [] => []
  | e :: rest => parse_xml_recursively e ++ parse_xml_children rest

end

mutual

/-- Function `eraseTails e` replaces every `.tail` in the tree by `none`. -/
def eraseTails : XmlElement → XmlElement
  | .elem tag attrs text children _ =>
    .elem tag attrs text (eraseTailsList children) none

/-- Function `eraseTails` mapped over a child list. -/
def eraseTailsList : List XmlElement → List XmlElement
  | [] => []
  | e :: rest => eraseTails e :: eraseTailsList rest

end

/-! ### `fetch_and_parse_file` (source lines 53-82)

`json.loads` and `ET.fromstring` are external library calls; their
outcomes are passed in: `none` models the parse exception
(`json.JSONDecodeError` / `ET.ParseError`), `some v` a successful parse
producing `v`.  The HTTP layer is likewise passed in as an outcome.
-/

/-- Outcome of a `session.get` call: a body, a non-success status (from
`raise_for_status`), or a network failure.  Both error constructors raise
`requests.RequestException` subclasses in Python. -/
inductive HttpOutcome (α : Type) where
  | ok (body : α)
  | httpError (code : Nat)
  | netError (msg : String)
deriving DecidableEq, Repr

/-- Python `str.endswith` for the literal extensions used by the source. -/
def strEndsWith (s suffixStr : String) : Bool :=
  suffixStr.data.isSuffixOf s.data

/-- The body of `fetch_and_parse_file` after a successful download
(source lines 62-79): dispatch on the URL extension, attempt structured
parsing for `.json`/`.xml`, fall back to the raw-text scan on parse
failure, and scan raw text directly otherwise. -/
def fetch_parse_body (file_url : String) (content : String)
    (jsonResult : Option PyJson) (xmlResult : Option XmlElement) : List String :=
  if strEndsWith file_url ".json" then
    match jsonResult with
    | some data => parse_json_recursively data
    | none => find_proxies_in_text content
  else if strEndsWith file_url ".xml" then
    match xmlResult with
    | some root => parse_xml_recursively root
    | none => find_proxies_in_text content
  else
    find_proxies_in_text content

/-- Full `fetch_and_parse_file` (source lines 53-82): shutdown check, then
download; a `requests.RequestException` is caught and yields `[]`. -/
def fetch_and_parse_file (sd : Bool) (file_url : String)
    (resp : HttpOutcome String) (jsonResult : Option PyJson)
    (xmlResult : Option XmlElement) : List String :=
  if sd then []
  else
    match resp with
    | .ok content => fetch_parse_body file_url content jsonResult xmlResult
    | .httpError _ => []
    | .netError _ => []

/-! ### Repository resolution (source lines 84-137)

Python exceptions that the source does *not* catch (`AttributeError` from
`.get` on a non-dict, `TypeError` from iterating a non-iterable) are
embedded as `Except.error`; the progress side-channel
(`pbar.set_description`) is modelled as a list of emitted messages.
-/

/-- Python truthiness of a JSON value. -/
def pyTruthy : PyJson → Bool
  | .obj fields => !fields.isEmpty
  | .arr items => !items.isEmpty
  | .str s => !(s == "")
  | .num n => !(n == 0)
  | .bool b => b
  | .null => false

def pyTruthyOpt : Option PyJson → Bool
  | none => false
  | some v => pyTruthy v

/-- Python `v.get(key)`: `AttributeError` unless `v` is a dict. -/
def pyGet (v : PyJson) (key : String) : Except String (Option PyJson) :=
  match v with
  | .obj fields => .ok (fields.lookup key)
  | _ => .error "AttributeError"

/-- Python `str()` of a JSON value as used in f-string interpolation.  Only the
string case is exercised by real GitHub responses; the other renderings
are simplified placeholders. -/
def pyToStr : PyJson → String
  | .str s => s
  | .num n => toString n
  | .bool b => if b then "True" else "False"
  | .null => "None"
  | .obj _ => "object"
  | .arr _ => "list"

/-- Python `for item in v` over a JSON value: lists yield items, dicts yield
their keys, strings yield their characters; other values raise
`TypeError`. -/
def pyIterate : PyJson → Except String (List PyJson)
  | .arr items => .ok items
  | .obj fields => .ok (fields.map (fun kv => PyJson.str kv.1))
  | .str s => .ok (s.data.map (fun c => PyJson.str (String.mk [c])))
  | _ => .error "TypeError"

def apiErrorMsg (user repo : String) : String :=
  "API error for " ++ user ++ "/" ++ repo

def jsonDecodeMsg (user repo : String) : String :=
  "JSON decode error for " ++ user ++ "/" ++ repo

def invalidURLMsg (url : String) : String :=
  "Invalid repository URL: " ++ url

def noBranchMsg (user repo : String) : String :=
  "Could not determine default branch for " ++ user ++ "/" ++ repo ++ ", skipping"

def apiFilesMsg (user repo : String) : String :=
  "API error getting files for " ++ user ++ "/" ++ repo

def truncatedMsg (user repo : String) : String :=
  "Warning: File list for " ++ user ++ "/" ++ repo ++ " is truncated"

/-- Model of `get_default_branch` (source lines 84-96): returns the raw
value of the `default_branch` field (Python returns whatever
`repo_info.get` yields).  `RequestException` and `JSONDecodeError` are
caught and reported; `.get` on a non-dict body raises. -/
def get_default_branch (user repo : String)
    (resp : HttpOutcome (Option PyJson)) :
    Except String (Option PyJson × List String) :=
  match resp with
  | .netError _ => .ok (none, [apiErrorMsg user repo])
  | .httpError _ => .ok (none, [apiErrorMsg user repo])
  | .ok none => .ok (none, [jsonDecodeMsg user repo])
  | .ok (some body) =>
    match pyGet body "default_branch" with
    | .ok v => .ok (v, [])
    | .error e => .error e

/-- Python `repo_url.strip('/')`. -/
def stripSlashes (l : List Char) : List Char :=
  ((l.dropWhile (fun c => c == '/')).reverse.dropWhile (fun c => c == '/')).reverse

/-- Python `s.split('/')` (note `''.split('/') == ['']`). -/
def splitOnSlashAux : List Char → List Char → List (List Char)
  | [], acc => [acc.reverse]
  | c :: rest, acc =>
    if c == '/' then acc.reverse :: splitOnSlashAux rest []
    else splitOnSlashAux rest (c :: acc)

/-- Python `repo_url.strip('/').split('/')`. -/
def pySegments (s : String) : List String :=
  (splitOnSlashAux (stripSlashes s.data) []).map (fun l => String.mk l)

/-- The `'.txt' / '.json' / '.xml'` filter of the tree loop. -/
def endsWithKnownExt (path : String) : Bool :=
  [".txt", ".json", ".xml"].any (fun ext => strEndsWith path ext)

/-- The raw-content URL built at source line 130. -/
def rawUrl (user repo branch path : String) : String :=
  "https://raw.githubusercontent.com/" ++ user ++ "/" ++ repo ++ "/" ++ branch ++ "/" ++ path

/-- Python `==` comparison of an optional JSON value against a string
literal: in Python only an equal `str` compares equal to `'blob'`. -/
def pyEqStr (v : Option PyJson) (s : String) : Bool :=
  match v with
  | some (.str t) => t == s
  | _ => false

/-- The `for item in data.get('tree', [])` loop (source lines 126-131):
keep `type == 'blob'` entries whose path ends in a known extension.
`item.get('type')` raises on non-dict items; `.endswith` raises on a
non-string path (only reached when the type is `'blob'`, because Python's
`and` short-circuits). -/
def treeLoop (user repo branch : String) : List PyJson → Except String (List String)
  | [] => .ok []
  | item :: rest =>
    match pyGet item "type" with
    | .error e => .error e
    | .ok tyVal =>
      if pyEqStr tyVal "blob" then
        match pyGet item "path" with
        | .error e => .error e
        | .ok pathVal =>
          match pathVal.getD (PyJson.str "") with
          | .str path =>
            if endsWithKnownExt path then
              match treeLoop user repo branch rest with
              | .error e => .error e
              | .ok l => .ok (rawUrl user repo branch path :: l)
            else treeLoop user repo branch rest
          | _ => .error "AttributeError"
      else treeLoop user repo branch rest

/-- Segment `parts[-2]` of the split URL, i.e. the owner segment. -/
def urlUser (repo_url : String) : String :=
  (pySegments repo_url).getD ((pySegments repo_url).length - 2) ""

/-- Segment `parts[-1]` of the split URL, i.e. the repository-name segment. -/
def urlRepo (repo_url : String) : String :=
  (pySegments repo_url).getD ((pySegments repo_url).length - 1) ""

/-- Model of `get_files_from_repo` (source lines 98-137).  The two remote
responses are inputs; the result is the file-URL list plus the messages
sent to the progress side-channel.  Uncaught Python exceptions surface as
`Except.error`. -/
def get_files_from_repo (sd : Bool) (repo_url : String)
    (metaResp treeResp : HttpOutcome (Option PyJson)) :
    Except String (List String × List String) :=
  if sd then .ok ([], [])
  else
    if (pySegments repo_url).length < 2 then .ok ([], [invalidURLMsg repo_url])
    else
      let user := urlUser repo_url
      let repo := urlRepo repo_url
      match get_default_branch user repo metaResp with
      | .error e => .error e
      | .ok (branchVal, msgs) =>
        if pyTruthyOpt branchVal then
          let branch := pyToStr (branchVal.getD PyJson.null)
          match treeResp with
          | .netError _ => .ok ([], msgs ++ [apiFilesMsg user repo])
          | .httpError _ => .ok ([], msgs ++ [apiFilesMsg user repo])
          | .ok none => .ok ([], msgs ++ [jsonDecodeMsg user repo])
          | .ok (some data) =>
            match pyGet data "truncated" with
            | .error e => .error e
            | .ok truncVal =>
              let warn := if pyTruthyOpt truncVal then [truncatedMsg user repo] else []
              match pyGet data "tree" with
              | .error e => .error e
              | .ok treeVal =>
                match pyIterate (treeVal.getD (PyJson.arr [])) with
                | .error e => .error e
                | .ok items =>
                  match treeLoop user repo branch items with
                  | .error e => .error e
                  | .ok files => .ok (files, msgs ++ warn)
        else .ok ([], msgs ++ [noBranchMsg user repo])

/-! ### Aggregation and shutdown (source lines 139-218) -/

/-- The file loop of `process_repository` (source lines 154-160): the
per-repository set is the union of each file's extracted token list. -/
def process_repository_agg (fileTokenLists : List (List String)) : Finset String :=
  fileTokenLists.foldl (fun acc ps => acc ∪ ps.toFinset) ∅

/-- The `as_completed` loop of `main` (source lines 191-203):
`all_proxies.update(result)` over the completed repository results, in
completion order. -/
def main_agg (repoResults : List (Finset String)) : Finset String :=
  repoResults.foldl (fun acc r => acc ∪ r) ∅

/-- Model of `sorted(list(all_proxies))` (source line 212), using the lexical order
on strings. -/
def sortedOutput (s : Finset String) : List String :=
  s.sort (fun a b => a ≤ b)

/-- Python `user, repo = parts[-2:]`: raises `ValueError` when the list
has fewer than two elements. -/
def unpackLastTwo (parts : List String) : Except String (String × String) :=
  if parts.length < 2 then .error "ValueError"
  else .ok (parts.getD (parts.length - 2) "", parts.getD (parts.length - 1) "")

/-- Per-file environment of a repository run: the HTTP outcome for a file
URL together with the library parse outcomes for its content. -/
def FileEnv : Type := String → HttpOutcome String × Option PyJson × Option XmlElement

/-- Model of `process_repository` (source lines 139-163): parse the URL
(line 144 raises `ValueError` on short URLs), resolve the file list, then
fetch-and-parse each file sequentially, unioning into the repository
set. -/
def process_repository (sd : Bool) (repo_url : String)
    (metaResp treeResp : HttpOutcome (Option PyJson)) (env : FileEnv) :
    Except String (Finset String) :=
  if sd then .ok ∅
  else
    match unpackLastTwo (pySegments repo_url) with
    | .error e => .error e
    | .ok _ =>
      match get_files_from_repo sd repo_url metaResp treeResp with
      | .error e => .error e
      | .ok (files, _) =>
        .ok (files.foldl (fun acc u =>
          let (resp, jres, xres) := env u
          acc ∪ (fetch_and_parse_file sd u resp jres xres).toFinset) ∅)

/-- The `except Exception` handler of `main` (source lines 196-203): a
repository whose job raised contributes nothing; the run continues. -/
def schedulerContribution : Except String (Finset String) → Finset String
  | .ok s => s
  | .error _ => ∅

/-- A repository interrupted after `cut` files contributes the union of
its first `cut` files' tokens (the `break` at source line 156-157). -/
def repoRunTokens (fileTokenLists : List (List String)) (cut : Nat) : Finset String :=
  process_repository_agg (fileTokenLists.take cut)

/-- The collection of an interrupted run: each repository is cut at its
own file index, and the main loop stops after `mainCut` completed
repositories (the `break` at source lines 192-195). -/
def runCollected (repos : List (List (List String))) (fileCuts : List Nat)
    (mainCut : Nat) : Finset String :=
  main_agg ((List.zipWith repoRunTokens repos fileCuts).take mainCut)

/-- The collection of a full, uninterrupted run. -/
def fullCollected (repos : List (List (List String))) : Finset String :=
  main_agg (repos.map process_repository_agg)

/-! ## Lemmas about the pattern matcher -/

theorem isWordC_of_digit {c : Char} (h : isDigitC c = true) : isWordC c = true := by
  simp [isDigitC] at h
  simp [isWordC]
  omega

theorem notDigit_of_notWord {c : Char} (h : isWordC c = false) : isDigitC c = false := by
  cases hd : isDigitC c with
  | false => rfl
  | true => rw [isWordC_of_digit hd] at h; cases h

theorem boundaryAfter_of_afterOk {q : List Char} (h : afterOk q) : boundaryAfter q = true := by
  rcases h with rfl | ⟨c, t, rfl, hw⟩
  · rfl
  · simp [boundaryAfter, hw]

theorem afterOk_of_boundaryAfter {q : List Char} (h : boundaryAfter q = true) : afterOk q := by
  cases q with
  | nil => exact Or.inl rfl
  | cons c t =>
    refine Or.inr ⟨c, t, rfl, ?_⟩
    simpa [boundaryAfter] using h

theorem firstSome_cons_some {α β : Type} {f : α → Option β} {a : α} {l : List α} {b : β}
    (h : f a = some b) : firstSome f (a :: l) = some b := by
  simp [firstSome, h]

theorem firstSome_eq_some {α β : Type} {f : α → Option β} {l : List α} {b : β}
    (h : firstSome f l = some b) : ∃ a ∈ l, f a = some b := by
  induction l with
  | nil => simp [firstSome] at h
  | cons a l ih =>
    rw [firstSome] at h
    cases hfa : f a with
    | some b2 =>
      rw [hfa] at h
      simp only [Option.some.injEq] at h
      exact ⟨a, by simp, by rw [hfa, h]⟩
    | none =>
      rw [hfa] at h
      obtain ⟨x, hx, hfx⟩ := ih h
      exact ⟨x, by simp [hx], hfx⟩

theorem digitRunLen_le {cs : List Char} : digitRunLen cs ≤ cs.length := by
  induction cs with
  | nil => simp [digitRunLen]
  | cons c r ih =>
    rw [digitRunLen]
    by_cases hd : isDigitC c = true
    · rw [if_pos hd]
      simpa using ih
    · rw [if_neg hd]
      simp

theorem digitRunLen_concat {p q : List Char} (hp : ∀ c ∈ p, isDigitC c = true)
    (hq : afterOk q) : digitRunLen (p ++ q) = p.length := by
  induction p with
  | nil =>
    rcases hq with rfl | ⟨c, t, rfl, hw⟩
    · rfl
    · simp [digitRunLen, notDigit_of_notWord hw]
  | cons c p ih =>
    have hc := hp c (by simp)
    rw [List.cons_append, digitRunLen, if_pos hc,
      ih (fun x hx => hp x (by simp [hx]))]
    simp

theorem take_all_digits {cs : List Char} {k : Nat} (h : k ≤ digitRunLen cs) :
    ∀ c ∈ cs.take k, isDigitC c = true := by
  induction cs generalizing k with
  | nil => simp
  | cons c r ih =>
    cases k with
    | zero => simp
    | succ k2 =>
      rw [digitRunLen] at h
      by_cases hd : isDigitC c = true
      · rw [if_pos hd] at h
        intro x hx
        rw [List.take_succ_cons] at hx
        rcases List.mem_cons.mp hx with rfl | hx2
        · exact hd
        · exact ih (by omega) x hx2
      · rw [if_neg hd] at h
        omega

theorem descFrom_mem {n l : Nat} (h : l ∈ descFrom n) : 1 ≤ l ∧ l ≤ n := by
  induction n with
  | zero => simp [descFrom] at h
  | succ n ih =>
    rw [descFrom] at h
    rcases List.mem_cons.mp h with rfl | h2
    · omega
    · have := ih h2
      omega

theorem octetCands_nil_of_nondigit {c : Char} {l : List Char} (h : isDigitC c = false) :
    octetCands (c :: l) = [] := by
  have h2 : ¬(48 ≤ c.toNat ∧ c.toNat ≤ 57) := by simpa [isDigitC] using h
  have hA : chIs (c :: l) 0 50 = false := by
    simp [chIs]
    omega
  have hB : chInRange (c :: l) 0 48 49 = false := by
    simp [chInRange]
    omega
  have hC : chInRange (c :: l) 0 48 57 = false := by
    simp [chInRange]
    omega
  simp [octetCands, octetAlt1, octetAlt2, octetAlt3a, octetAlt3b, octetAlt3c, octetAlt3d,
    hA, hB, hC]

theorem mem_ifCand {p : Prop} [Decidable p] {l x : Nat} :
    (l ∈ if p then [x] else ([] : List Nat)) ↔ p ∧ l = x := by
  by_cases hp : p <;> simp [hp]

/-- Every candidate octet length denotes a well-formed octet prefix. -/
theorem octetCands_sound {cs : List Char} {l : Nat} (h : l ∈ octetCands cs) :
    l ≤ cs.length ∧ octetOk (cs.take l) := by
  rcases cs with _ | ⟨x0, _ | ⟨x1, _ | ⟨x2, rest⟩⟩⟩
  · simp [octetCands, octetAlt1, octetAlt2, octetAlt3a, octetAlt3b, octetAlt3c, octetAlt3d,
      chIs, chInRange] at h
  · simp [octetCands, octetAlt1, octetAlt2, octetAlt3a, octetAlt3b, octetAlt3c, octetAlt3d,
      chIs, chInRange, mem_ifCand] at h
    obtain ⟨hx, rfl⟩ := h
    refine ⟨by simp, ?_⟩
    simp [octetOk, decVal, digitVal, isDigitC]
    omega
  · simp [octetCands, octetAlt1, octetAlt2, octetAlt3a, octetAlt3b, octetAlt3c, octetAlt3d,
      chIs, chInRange, mem_ifCand] at h
    rcases h with ⟨hc, rfl⟩ | ⟨hc, rfl⟩ | ⟨hc, rfl⟩
    · refine ⟨by simp, ?_⟩
      simp [octetOk, decVal, digitVal, isDigitC]
      omega
    · refine ⟨by simp, ?_⟩
      simp [octetOk, decVal, digitVal, isDigitC]
      omega
    · refine ⟨by simp, ?_⟩
      simp [octetOk, decVal, digitVal, isDigitC]
      omega
  · simp [octetCands, octetAlt1, octetAlt2, octetAlt3a, octetAlt3b, octetAlt3c, octetAlt3d,
      chIs, chInRange, mem_ifCand] at h
    rcases h with ⟨hc, rfl⟩ | ⟨hc, rfl⟩ | ⟨hc, rfl⟩ | ⟨hc, rfl⟩ | ⟨hc, rfl⟩ | ⟨hc, rfl⟩ <;>
      refine ⟨by simp, ?_⟩ <;>
      simp [octetOk, decVal, digitVal, isDigitC] <;>
      omega

/-- At the start of a well-formed octet followed by a non-digit, the first
candidate the engine tries consumes exactly the octet. -/
theorem octetCands_head {s : List Char} {e : Char} (r : List Char)
    (hs : octetOk s) (he : isDigitC e = false) :
    ∃ tail, octetCands (s ++ e :: r) = s.length :: tail := by
  obtain ⟨hne, hlen, hdig, hval⟩ := hs
  have he2 : ¬(48 ≤ e.toNat ∧ e.toNat ≤ 57) := by simpa [isDigitC] using he
  rcases s with _ | ⟨a, _ | ⟨b, _ | ⟨c, _ | ⟨d, s4⟩⟩⟩⟩
  · cases hne rfl
  · have ha : 48 ≤ a.toNat ∧ a.toNat ≤ 57 := by
      simpa [isDigitC] using hdig a (by simp)
    have h1 : chIs (a :: e :: r) 1 53 = false := by
      simp [chIs]; omega
    have h2 : chInRange (a :: e :: r) 1 48 52 = false := by
      simp [chInRange]; omega
    have h3 : chInRange (a :: e :: r) 1 48 57 = false := by
      simp [chInRange]; omega
    have h4 : chInRange (a :: e :: r) 0 48 57 = true := by
      simp [chInRange]; omega
    refine ⟨[], ?_⟩
    simp [octetCands, octetAlt1, octetAlt2, octetAlt3a, octetAlt3b, octetAlt3c, octetAlt3d,
      h1, h2, h3, h4]
  · have ha : 48 ≤ a.toNat ∧ a.toNat ≤ 57 := by
      simpa [isDigitC] using hdig a (by simp)
    have hb : 48 ≤ b.toNat ∧ b.toNat ≤ 57 := by
      simpa [isDigitC] using hdig b (by simp)
    have h1 : chInRange (a :: b :: e :: r) 2 48 53 = false := by
      simp [chInRange]; omega
    have h2 : chInRange (a :: b :: e :: r) 2 48 57 = false := by
      simp [chInRange]; omega
    have hb1 : chInRange (a :: b :: e :: r) 1 48 57 = true := by
      simp [chInRange]; omega
    have hc0 : chInRange (a :: b :: e :: r) 0 48 57 = true := by
      simp [chInRange]; omega
    by_cases h01 : 48 ≤ a.toNat ∧ a.toNat ≤ 49
    · have h3b : chInRange (a :: b :: e :: r) 0 48 49 = true := by
        simp [chInRange]; omega
      refine ⟨[2, 1], ?_⟩
      simp [octetCands, octetAlt1, octetAlt2, octetAlt3a, octetAlt3b, octetAlt3c, octetAlt3d,
        h1, h2, hb1, hc0, h3b]
    · have h3b : chInRange (a :: b :: e :: r) 0 48 49 = false := by
        simp [chInRange]; omega
      refine ⟨[1], ?_⟩
      simp [octetCands, octetAlt1, octetAlt2, octetAlt3a, octetAlt3b, octetAlt3c, octetAlt3d,
        h1, h2, hb1, hc0, h3b]
  · have ha : 48 ≤ a.toNat ∧ a.toNat ≤ 57 := by
      simpa [isDigitC] using hdig a (by simp)
    have hb : 48 ≤ b.toNat ∧ b.toNat ≤ 57 := by
      simpa [isDigitC] using hdig b (by simp)
    have hcd : 48 ≤ c.toNat ∧ c.toNat ≤ 57 := by
      simpa [isDigitC] using hdig c (by simp)
    simp [decVal, digitVal] at hval
    have hIdx0 : chInRange (a :: b :: c :: e :: r) 0 48 57 = true := by
      simp [chInRange]; omega
    have hIdx1 : chInRange (a :: b :: c :: e :: r) 1 48 57 = true := by
      simp [chInRange]; omega
    have hIdx2 : chInRange (a :: b :: c :: e :: r) 2 48 57 = true := by
      simp [chInRange]; omega
    by_cases hA2 : a.toNat = 50
    · by_cases hB5 : b.toNat = 53
      · have hx : chIs (a :: b :: c :: e :: r) 0 50 = true := by
          simp [chIs]; omega
        have hy : chIs (a :: b :: c :: e :: r) 1 53 = true := by
          simp [chIs]; omega
        have hz : chInRange (a :: b :: c :: e :: r) 2 48 53 = true := by
          simp [chInRange]; omega
        have hw : chInRange (a :: b :: c :: e :: r) 1 48 52 = false := by
          simp [chInRange]; omega
        have h3a : chInRange (a :: b :: c :: e :: r) 0 48 49 = false := by
          simp [chInRange]; omega
        refine ⟨[2, 1], ?_⟩
        simp [octetCands, octetAlt1, octetAlt2, octetAlt3a, octetAlt3b, octetAlt3c, octetAlt3d,
          hx, hy, hz, hw, h3a, hIdx0, hIdx1]
      · have hx : chIs (a :: b :: c :: e :: r) 0 50 = true := by
          simp [chIs]; omega
        have hy : chIs (a :: b :: c :: e :: r) 1 53 = false := by
          simp [chIs]; omega
        have hz : chInRange (a :: b :: c :: e :: r) 1 48 52 = true := by
          simp [chInRange]; omega
        have h3a : chInRange (a :: b :: c :: e :: r) 0 48 49 = false := by
          simp [chInRange]; omega
        refine ⟨[2, 1], ?_⟩
        simp [octetCands, octetAlt1, octetAlt2, octetAlt3a, octetAlt3b, octetAlt3c, octetAlt3d,
          hx, hy, hz, h3a, hIdx0, hIdx1, hIdx2]
    · have hx : chIs (a :: b :: c :: e :: r) 0 50 = false := by
        simp [chIs]; omega
      have h3a : chInRange (a :: b :: c :: e :: r) 0 48 49 = true := by
        simp [chInRange]; omega
      refine ⟨[2, 2, 1], ?_⟩
      simp [octetCands, octetAlt1, octetAlt2, octetAlt3a, octetAlt3b, octetAlt3c, octetAlt3d,
        hx, h3a, hIdx0, hIdx1, hIdx2]
  · simp at hlen

theorem append_drop_len {α : Type} (l1 l2 : List α) : (l1 ++ l2).drop l1.length = l2 := by
  simp

theorem append_take_len {α : Type} (l1 l2 : List α) : (l1 ++ l2).take l1.length = l1 := by
  simp

theorem headIs_elim {xs : List Char} {ch : Char} (h : headIs xs ch = true) :
    ∃ t, xs = ch :: t := by
  cases xs with
  | nil => simp [headIs] at h
  | cons x t =>
    simp [headIs] at h
    exact ⟨t, by rw [h]⟩

theorem drop_succ_of_drop_cons {cs : List Char} {l : Nat} {ch : Char} {t : List Char}
    (h : cs.drop l = ch :: t) : cs.drop (l + 1) = t := by
  rw [← List.drop_drop, h]
  rfl

/-- Soundness of `matchPort`: it consumes a well-formed port and leaves a
suffix at which the trailing `\b` holds. -/
theorem matchPort_sound {cs prt : List Char} (h : matchPort cs = some prt) :
    ∃ rest, cs = prt ++ rest ∧ portOk prt ∧ afterOk rest := by
  obtain ⟨lp, hmem, hf⟩ := firstSome_eq_some h
  by_cases hb : boundaryAfter (cs.drop lp) = true
  · rw [if_pos hb] at hf
    simp only [Option.some.injEq] at hf
    rw [portCands] at hmem
    have hm := descFrom_mem hmem
    have hrun : digitRunLen cs ≤ cs.length := digitRunLen_le
    have hlp5 : lp ≤ 5 := by omega
    have hlprun : lp ≤ digitRunLen cs := by omega
    refine ⟨cs.drop lp, ?_, ?_, afterOk_of_boundaryAfter hb⟩
    · rw [← hf, List.take_append_drop]
    · rw [← hf]
      have hlen : (cs.take lp).length = lp := by
        rw [List.length_take]
        omega
      refine ⟨?_, by omega, take_all_digits hlprun⟩
      intro hnil
      rw [hnil] at hlen
      simp at hlen
      omega
  · rw [if_neg hb] at hf
    cases hf

/-- Completeness of `matchPort` at a well-formed port followed by a
boundary. -/
theorem matchPort_complete {prt q : List Char} (hp : portOk prt) (hq : afterOk q) :
    matchPort (prt ++ q) = some prt := by
  obtain ⟨hne, hlen, hdig⟩ := hp
  have hrun : digitRunLen (prt ++ q) = prt.length := digitRunLen_concat hdig hq
  obtain ⟨k, hk⟩ : ∃ k, prt.length = k + 1 := by
    cases prt with
    | nil => cases hne rfl
    | cons c t => exact ⟨t.length, by simp⟩
  rw [matchPort, portCands, hrun]
  have hmin : min prt.length 5 = prt.length := by omega
  rw [hmin, hk, descFrom, ← hk]
  apply firstSome_cons_some
  rw [append_drop_len, boundaryAfter_of_afterOk hq]
  simp [append_take_len]

/-- Soundness of `matchO4`. -/
theorem matchO4_sound {cs d prt : List Char} (h : matchO4 cs = some (d, prt)) :
    ∃ rest, cs = d ++ ':' :: (prt ++ rest) ∧ octetOk d ∧ portOk prt ∧ afterOk rest := by
  obtain ⟨l, hmem, hf⟩ := firstSome_eq_some h
  by_cases hh : headIs (cs.drop l) ':' = true
  · rw [if_pos hh] at hf
    cases hmp : matchPort (cs.drop (l + 1)) with
    | none => rw [hmp] at hf; cases hf
    | some prt2 =>
      rw [hmp] at hf
      simp only [Option.some.injEq, Prod.mk.injEq] at hf
      obtain ⟨hfd, hfp⟩ := hf
      subst hfp
      obtain ⟨t, ht⟩ := headIs_elim hh
      have hd1 : cs.drop (l + 1) = t := drop_succ_of_drop_cons ht
      rw [hd1] at hmp
      obtain ⟨rest, hrest, hport, hafter⟩ := matchPort_sound hmp
      have hsound := octetCands_sound hmem
      refine ⟨rest, ?_, ?_, hport, hafter⟩
      · conv_lhs => rw [← List.take_append_drop l cs]
        rw [ht, hrest, hfd]
      · rw [← hfd]
        exact hsound.2
  · rw [if_neg hh] at hf
    cases hf

/-- Completeness of `matchO4`. -/
theorem matchO4_complete {d prt q : List Char} (hd : octetOk d) (hp : portOk prt)
    (hq : afterOk q) : matchO4 (d ++ ':' :: (prt ++ q)) = some (d, prt) := by
  have hcol : isDigitC ':' = false := by decide
  obtain ⟨tail, htail⟩ := octetCands_head (prt ++ q) hd hcol
  rw [matchO4, htail]
  apply firstSome_cons_some
  have hdrop : (d ++ ':' :: (prt ++ q)).drop d.length = ':' :: (prt ++ q) :=
    append_drop_len d (':' :: (prt ++ q))
  have hdrop1 : (d ++ ':' :: (prt ++ q)).drop (d.length + 1) = prt ++ q :=
    drop_succ_of_drop_cons hdrop
  rw [hdrop, hdrop1, matchPort_complete hp hq]
  simp [headIs, append_take_len]

/-- Soundness of `matchO3`. -/
theorem matchO3_sound {cs o3 d prt : List Char}
    (h : matchO3 cs = some (o3, d, prt)) :
    ∃ rest, cs = o3 ++ '.' :: (d ++ ':' :: (prt ++ rest)) ∧
      octetOk o3 ∧ octetOk d ∧ portOk prt ∧ afterOk rest := by
  obtain ⟨l, hmem, hf⟩ := firstSome_eq_some h
  by_cases hh : headIs (cs.drop l) '.' = true
  · rw [if_pos hh] at hf
    cases hmp : matchO4 (cs.drop (l + 1)) with
    | none => rw [hmp] at hf; cases hf
    | some r2 =>
      rw [hmp] at hf
      simp only [Option.some.injEq, Prod.mk.injEq] at hf
      obtain ⟨hfd, hfp⟩ := hf
      obtain ⟨t, ht⟩ := headIs_elim hh
      have hd1 : cs.drop (l + 1) = t := drop_succ_of_drop_cons ht
      rw [hd1] at hmp
      rw [hfp] at hmp
      obtain ⟨rest, hrest, hoct, hport, hafter⟩ := matchO4_sound hmp
      have hsound := octetCands_sound hmem
      refine ⟨rest, ?_, ?_, hoct, hport, hafter⟩
      · conv_lhs => rw [← List.take_append_drop l cs]
        rw [ht, hrest, hfd]
      · rw [← hfd]
        exact hsound.2
  · rw [if_neg hh] at hf
    cases hf

/-- Completeness of `matchO3`. -/
theorem matchO3_complete {c d prt q : List Char} (hc : octetOk c) (hd : octetOk d)
    (hp : portOk prt) (hq : afterOk q) :
    matchO3 (c ++ '.' :: (d ++ ':' :: (prt ++ q))) = some (c, d, prt) := by
  have hdot : isDigitC '.' = false := by decide
  obtain ⟨tail, htail⟩ := octetCands_head (d ++ ':' :: (prt ++ q)) hc hdot
  rw [matchO3, htail]
  apply firstSome_cons_some
  have hdrop : (c ++ '.' :: (d ++ ':' :: (prt ++ q))).drop c.length =
      '.' :: (d ++ ':' :: (prt ++ q)) :=
    append_drop_len c ('.' :: (d ++ ':' :: (prt ++ q)))
  have hdrop1 : (c ++ '.' :: (d ++ ':' :: (prt ++ q))).drop (c.length + 1) =
      d ++ ':' :: (prt ++ q) :=
    drop_succ_of_drop_cons hdrop
  rw [hdrop, hdrop1, matchO4_complete hd hp hq]
  simp [headIs, append_take_len]

/-- Soundness of `matchO2`. -/
theorem matchO2_sound {cs o2 o3 d prt : List Char}
    (h : matchO2 cs = some (o2, o3, d, prt)) :
    ∃ rest, cs = o2 ++ '.' :: (o3 ++ '.' :: (d ++ ':' :: (prt ++ rest))) ∧
      octetOk o2 ∧ octetOk o3 ∧ octetOk d ∧ portOk prt ∧ afterOk rest := by
  obtain ⟨l, hmem, hf⟩ := firstSome_eq_some h
  by_cases hh : headIs (cs.drop l) '.' = true
  · rw [if_pos hh] at hf
    cases hmp : matchO3 (cs.drop (l + 1)) with
    | none => rw [hmp] at hf; cases hf
    | some r2 =>
      rw [hmp] at hf
      simp only [Option.some.injEq, Prod.mk.injEq] at hf
      obtain ⟨hfd, hfp⟩ := hf
      obtain ⟨t, ht⟩ := headIs_elim hh
      have hd1 : cs.drop (l + 1) = t := drop_succ_of_drop_cons ht
      rw [hd1] at hmp
      rw [hfp] at hmp
      obtain ⟨rest, hrest, h3, h4, hport, hafter⟩ := matchO3_sound hmp
      have hsound := octetCands_sound hmem
      refine ⟨rest, ?_, ?_, h3, h4, hport, hafter⟩
      · conv_lhs => rw [← List.take_append_drop l cs]
        rw [ht, hrest, hfd]
      · rw [← hfd]
        exact hsound.2
  · rw [if_neg hh] at hf
    cases hf

/-- Completeness of `matchO2`. -/
theorem matchO2_complete {b c d prt q : List Char} (hb : octetOk b) (hc : octetOk c)
    (hd : octetOk d) (hp : portOk prt) (hq : afterOk q) :
    matchO2 (b ++ '.' :: (c ++ '.' :: (d ++ ':' :: (prt ++ q)))) =
      some (b, c, d, prt) := by
  have hdot : isDigitC '.' = false := by decide
  obtain ⟨tail, htail⟩ :=
    octetCands_head (c ++ '.' :: (d ++ ':' :: (prt ++ q))) hb hdot
  rw [matchO2, htail]
  apply firstSome_cons_some
  have hdrop : (b ++ '.' :: (c ++ '.' :: (d ++ ':' :: (prt ++ q)))).drop b.length =
      '.' :: (c ++ '.' :: (d ++ ':' :: (prt ++ q))) :=
    append_drop_len b ('.' :: (c ++ '.' :: (d ++ ':' :: (prt ++ q))))
  have hdrop1 : (b ++ '.' :: (c ++ '.' :: (d ++ ':' :: (prt ++ q)))).drop (b.length + 1) =
      c ++ '.' :: (d ++ ':' :: (prt ++ q)) :=
    drop_succ_of_drop_cons hdrop
  rw [hdrop, hdrop1, matchO3_complete hc hd hp hq]
  simp [headIs, append_take_len]

/-- Soundness of `matchAt`: a successful match consumes exactly a
well-formed token prefix, with the trailing boundary holding after it. -/
theorem matchAt_sound {cs : List Char} {m : ProxyMatch} (h : matchAt cs = some m) :
    ∃ rest, cs = matchChars m ++ rest ∧ octetOk m.o1 ∧ octetOk m.o2 ∧
      octetOk m.o3 ∧ octetOk m.o4 ∧ portOk m.prt ∧ afterOk rest := by
  obtain ⟨l, hmem, hf⟩ := firstSome_eq_some h
  by_cases hh : headIs (cs.drop l) '.' = true
  · rw [if_pos hh] at hf
    cases hmp : matchO2 (cs.drop (l + 1)) with
    | none => rw [hmp] at hf; cases hf
    | some r2 =>
      rw [hmp] at hf
      obtain ⟨b, c, d, p⟩ := r2
      simp only [Option.some.injEq] at hf
      obtain ⟨t, ht⟩ := headIs_elim hh
      have hd1 : cs.drop (l + 1) = t := drop_succ_of_drop_cons ht
      rw [hd1] at hmp
      obtain ⟨rest, hrest, h2, h3, h4, hport, hafter⟩ := matchO2_sound hmp
      have hsound := octetCands_sound hmem
      refine ⟨rest, ?_, ?_, ?_, ?_, ?_, ?_, hafter⟩
      · conv_lhs => rw [← List.take_append_drop l cs]
        rw [ht, hrest, ← hf]
        simp [matchChars]
      · rw [← hf]
        exact hsound.2
      · rw [← hf]
        exact h2
      · rw [← hf]
        exact h3
      · rw [← hf]
        exact h4
      · rw [← hf]
        exact hport
  · rw [if_neg hh] at hf
    cases hf

/-- Completeness of `matchAt` at a well-formed token followed by a
boundary. -/
theorem matchAt_complete {a b c d prt q : List Char} (ha : octetOk a) (hb : octetOk b)
    (hc : octetOk c) (hd : octetOk d) (hp : portOk prt) (hq : afterOk q) :
    matchAt (a ++ '.' :: (b ++ '.' :: (c ++ '.' :: (d ++ ':' :: (prt ++ q))))) =
      some ⟨a, b, c, d, prt⟩ := by
  have hdot : isDigitC '.' = false := by decide
  obtain ⟨tail, htail⟩ :=
    octetCands_head (b ++ '.' :: (c ++ '.' :: (d ++ ':' :: (prt ++ q)))) ha hdot
  rw [matchAt, htail]
  apply firstSome_cons_some
  have hdrop :
      (a ++ '.' :: (b ++ '.' :: (c ++ '.' :: (d ++ ':' :: (prt ++ q))))).drop a.length =
      '.' :: (b ++ '.' :: (c ++ '.' :: (d ++ ':' :: (prt ++ q)))) :=
    append_drop_len a ('.' :: (b ++ '.' :: (c ++ '.' :: (d ++ ':' :: (prt ++ q)))))
  have hdrop1 :
      (a ++ '.' :: (b ++ '.' :: (c ++ '.' :: (d ++ ':' :: (prt ++ q))))).drop (a.length + 1) =
      b ++ '.' :: (c ++ '.' :: (d ++ ':' :: (prt ++ q))) :=
    drop_succ_of_drop_cons hdrop
  rw [hdrop, hdrop1, matchO2_complete hb hc hd hp hq]
  simp [headIs, append_take_len]

/-- The matcher `matchAt` fails when the first character is not a digit. -/
theorem matchAt_none_of_nondigit {c : Char} {l : List Char} (h : isDigitC c = false) :
    matchAt (c :: l) = none := by
  rw [matchAt, octetCands_nil_of_nondigit h]
  rfl

/-- Every token produced by the scanning loop decomposes into four
well-formed octets and a well-formed port. -/
theorem scanLoop_sound :
    ∀ (fuel : Nat) (prev : Option Char) (cs tok : List Char),
      tok ∈ scanLoop fuel prev cs →
      ∃ m : ProxyMatch, tok = matchChars m ∧ octetOk m.o1 ∧ octetOk m.o2 ∧
        octetOk m.o3 ∧ octetOk m.o4 ∧ portOk m.prt := by
  intro fuel
  induction fuel with
  | zero =>
    intro prev cs tok h
    simp [scanLoop] at h
  | succ fuel ih =>
    intro prev cs tok h
    cases cs with
    | nil => simp [scanLoop] at h
    | cons c rest =>
      rw [scanLoop] at h
      by_cases hpb : prevBoundaryOk prev = true
      · rw [if_pos hpb] at h
        cases hma : matchAt (c :: rest) with
        | none =>
          rw [hma] at h
          exact ih _ _ _ h
        | some m =>
          rw [hma] at h
          rcases List.mem_cons.mp h with rfl | h2
          · obtain ⟨rest2, _, h1, h2, h3, h4, h5, _⟩ := matchAt_sound hma
            exact ⟨m, rfl, h1, h2, h3, h4, h5⟩
          · exact ih _ _ _ h2
      · rw [if_neg hpb] at h
        exact ih _ _ _ h

/-- Completeness of the scanning loop: a well-formed token preceded by
non-word characters and followed by a boundary is found. -/
theorem scanLoop_complete {a b c d prt : List Char}
    (ha : octetOk a) (hb : octetOk b) (hc : octetOk c) (hd : octetOk d)
    (hp : portOk prt) :
    ∀ (pre : List Char) (fuel : Nat) (prev : Option Char) (q : List Char),
      (∀ ch ∈ pre, isWordC ch = false) →
      afterOk q →
      prevBoundaryOk prev = true →
      pre.length < fuel →
      matchChars ⟨a, b, c, d, prt⟩ ∈
        scanLoop fuel prev (pre ++ (matchChars ⟨a, b, c, d, prt⟩ ++ q)) := by
  intro pre
  induction pre with
  | nil =>
    intro fuel prev q hpre hq hprev hfuel
    obtain ⟨f2, rfl⟩ : ∃ f2, fuel = f2 + 1 := ⟨fuel - 1, by omega⟩
    obtain ⟨a0, a2, rfl⟩ : ∃ a0 a2, a = a0 :: a2 := by
      cases a with
      | nil => cases ha.1 rfl
      | cons x y => exact ⟨x, y, rfl⟩
    have hshape : matchChars ⟨a0 :: a2, b, c, d, prt⟩ ++ q =
        a0 :: ((a2 ++ '.' :: (b ++ '.' :: (c ++ '.' :: (d ++ ':' :: prt)))) ++ q) := by
      simp [matchChars]
    have hassoc : a0 :: ((a2 ++ '.' :: (b ++ '.' :: (c ++ '.' :: (d ++ ':' :: prt)))) ++ q) =
        (a0 :: a2) ++ '.' :: (b ++ '.' :: (c ++ '.' :: (d ++ ':' :: (prt ++ q)))) := by
      simp [List.append_assoc]
    have hmatch :
        matchAt (a0 :: ((a2 ++ '.' :: (b ++ '.' :: (c ++ '.' :: (d ++ ':' :: prt)))) ++ q)) =
          some ⟨a0 :: a2, b, c, d, prt⟩ := by
      rw [hassoc]
      exact matchAt_complete ha hb hc hd hp hq
    rw [List.nil_append, hshape, scanLoop, if_pos hprev, hmatch]
    exact List.mem_cons_self _ _
  | cons ch pre ih =>
    intro fuel prev q hpre hq hprev hfuel
    obtain ⟨f2, rfl⟩ : ∃ f2, fuel = f2 + 1 := ⟨fuel - 1, by omega⟩
    have hw : isWordC ch = false := hpre ch (by simp)
    have hnd : isDigitC ch = false := notDigit_of_notWord hw
    have hrec := ih f2 (some ch) q (fun x hx => hpre x (by simp [hx])) hq
      (by simp [prevBoundaryOk, hw]) (by simp at hfuel; omega)
    rw [List.cons_append, scanLoop]
    by_cases hpb : prevBoundaryOk prev = true
    · rw [if_pos hpb, matchAt_none_of_nondigit hnd]
      exact hrec
    · rw [if_neg hpb]
      exact hrec

/-- Soundness of `find_proxies_in_text`. -/
theorem find_proxies_sound {s tok : String} (h : tok ∈ find_proxies_in_text s) :
    ∃ m : ProxyMatch, tok = String.mk (matchChars m) ∧ octetOk m.o1 ∧ octetOk m.o2 ∧
      octetOk m.o3 ∧ octetOk m.o4 ∧ portOk m.prt := by
  rw [find_proxies_in_text] at h
  obtain ⟨l, hl, rfl⟩ := List.mem_map.mp h
  obtain ⟨m, rfl, h1, h2, h3, h4, h5⟩ := scanLoop_sound _ _ _ _ hl
  exact ⟨m, rfl, h1, h2, h3, h4, h5⟩

/-- Completeness of `find_proxies_in_text` for a token flanked by
non-word context. -/
theorem find_proxies_complete {a b c d prt pre q : List Char}
    (ha : octetOk a) (hb : octetOk b) (hc : octetOk c) (hd : octetOk d) (hp : portOk prt)
    (hpre : ∀ ch ∈ pre, isWordC ch = false) (hq : afterOk q) :
    String.mk (matchChars ⟨a, b, c, d, prt⟩) ∈
      find_proxies_in_text (String.mk (pre ++ (matchChars ⟨a, b, c, d, prt⟩ ++ q))) := by
  rw [find_proxies_in_text]
  apply List.mem_map_of_mem
  show matchChars ⟨a, b, c, d, prt⟩ ∈
    scanLoop ((pre ++ (matchChars ⟨a, b, c, d, prt⟩ ++ q)).length + 1) none
      (pre ++ (matchChars ⟨a, b, c, d, prt⟩ ++ q))
  apply scanLoop_complete ha hb hc hd hp pre _ none q hpre hq rfl
  simp
  omega

/-- A digit string of length `k` denotes a value below `10 ^ k`. -/
theorem decVal_lt_pow {s : List Char} (h : ∀ c ∈ s, isDigitC c = true) :
    decVal s < 10 ^ s.length := by
  suffices haux : ∀ (s2 : List Char) (n : Nat), (∀ c ∈ s2, isDigitC c = true) →
      s2.foldl (fun n c => 10 * n + digitVal c) n < (n + 1) * 10 ^ s2.length by
    have hres := haux s 0 h
    simpa [decVal] using hres
  intro s2
  induction s2 with
  | nil =>
    intro n hn
    simp
  | cons c r ih =>
    intro n hn
    have hc : 48 ≤ c.toNat ∧ c.toNat ≤ 57 := by
      simpa [isDigitC] using hn c (by simp)
    rw [List.foldl_cons]
    have h1 := ih (10 * n + digitVal c) (fun x hx => hn x (by simp [hx]))
    have h3 : 10 * n + digitVal c + 1 ≤ 10 * (n + 1) := by
      unfold digitVal
      omega
    have h2 : (10 * n + digitVal c + 1) * 10 ^ r.length ≤ (n + 1) * 10 ^ (r.length + 1) := by
      calc (10 * n + digitVal c + 1) * 10 ^ r.length
          ≤ 10 * (n + 1) * 10 ^ r.length := Nat.mul_le_mul_right _ h3
        _ = (n + 1) * 10 ^ (r.length + 1) := by ring
    have h4 := Nat.lt_of_lt_of_le h1 h2
    simpa using h4

/-! ## Claims C2 and C3 -/

/-- Claim C3, amended: every token produced by the scanner has the form
`A.B.C.D:P` where each octet is a digit group of value 0-255; the port is
a digit group of one to five digits, hence of value at most 99999, but it
is *not* confined to 1-65535 (see the counterexample). -/
theorem C3_token_shape {text tok : String} (h : tok ∈ find_proxies_in_text text) :
    ∃ a b c d p : List Char,
      tok = String.mk (a ++ '.' :: (b ++ '.' :: (c ++ '.' :: (d ++ ':' :: p)))) ∧
      octetOk a ∧ octetOk b ∧ octetOk c ∧ octetOk d ∧ portOk p ∧ decVal p ≤ 99999 := by
  obtain ⟨m, rfl, h1, h2, h3, h4, h5⟩ := find_proxies_sound h
  refine ⟨m.o1, m.o2, m.o3, m.o4, m.prt, rfl, h1, h2, h3, h4, h5, ?_⟩
  have hlt := decVal_lt_pow h5.2.2
  have hl : m.prt.length ≤ 5 := h5.2.1
  have hpow : 10 ^ m.prt.length ≤ 10 ^ 5 := Nat.pow_le_pow_right (by omega) hl
  have h5v : (10 : Nat) ^ 5 = 100000 := by norm_num
  omega

/-- Witness for C3: `1.2.3.4:0` is scanned out of its own text and has the
guaranteed shape. -/
theorem C3_token_shape_witness :
    ("1.2.3.4:0" ∈ find_proxies_in_text "1.2.3.4:0") ∧
    ∃ a b c d p : List Char,
      "1.2.3.4:0" = String.mk (a ++ '.' :: (b ++ '.' :: (c ++ '.' :: (d ++ ':' :: p)))) ∧
      octetOk a ∧ octetOk b ∧ octetOk c ∧ octetOk d ∧ portOk p ∧ decVal p ≤ 99999 :=
  ⟨by decide, @C3_token_shape "1.2.3.4:0" "1.2.3.4:0" (by decide)⟩

/-- Counterexample for C3: the scanner emits `1.2.3.4:0` (port `0`) and
`1.2.3.4:99999` (port 99999 > 65535), refuting the claim that every
produced token has its port in 1-65535. -/
theorem C3_counterexample :
    find_proxies_in_text "1.2.3.4:0" = ["1.2.3.4:0"] ∧
    find_proxies_in_text "1.2.3.4:99999" = ["1.2.3.4:99999"] := by
  constructor <;> decide

/-- Claim C2, amended: (1) every well-formed `A.B.C.D:P` occurrence whose
left context consists of non-word characters and whose right neighbour is
absent or a non-word character is returned by the scan; (2) on any input,
every returned token's four octets have value at most 255.  Adjacency to
non-digit *word* characters (letters, underscore) suppresses the match via
`\b`, as does overlap with an earlier match — see the counterexample. -/
theorem C2_scan_completeness_and_octet_bound :
    (∀ pre q a b c d p : List Char,
      octetOk a → octetOk b → octetOk c → octetOk d → portOk p →
      (∀ ch ∈ pre, isWordC ch = false) → afterOk q →
      String.mk (a ++ '.' :: (b ++ '.' :: (c ++ '.' :: (d ++ ':' :: p)))) ∈
        find_proxies_in_text
          (String.mk (pre ++ ((a ++ '.' :: (b ++ '.' :: (c ++ '.' :: (d ++ ':' :: p)))) ++ q)))) ∧
    (∀ text tok : String, tok ∈ find_proxies_in_text text →
      ∃ a b c d p : List Char,
        tok = String.mk (a ++ '.' :: (b ++ '.' :: (c ++ '.' :: (d ++ ':' :: p)))) ∧
        decVal a ≤ 255 ∧ decVal b ≤ 255 ∧ decVal c ≤ 255 ∧ decVal d ≤ 255) := by
  constructor
  · intro pre q a b c d p ha hb hc hd hp hpre hq
    exact find_proxies_complete ha hb hc hd hp hpre hq
  · intro text tok h
    obtain ⟨m, rfl, h1, h2, h3, h4, h5⟩ := find_proxies_sound h
    exact ⟨m.o1, m.o2, m.o3, m.o4, m.prt, rfl, h1.2.2.2, h2.2.2.2, h3.2.2.2, h4.2.2.2⟩

/-- Witness for C2: ` 10.0.0.1:8080,` yields `10.0.0.1:8080`. -/
theorem C2_scan_witness :
    String.mk
        (['1', '0'] ++ '.' :: (['0'] ++ '.' :: (['0'] ++ '.' :: (['1'] ++ ':' :: ['8', '0', '8', '0'])))) ∈
      find_proxies_in_text
        (String.mk
          ([' '] ++
            ((['1', '0'] ++ '.' :: (['0'] ++ '.' :: (['0'] ++ '.' :: (['1'] ++ ':' :: ['8', '0', '8', '0'])))) ++
              [',']))) :=
  C2_scan_completeness_and_octet_bound.1 [' '] [','] ['1', '0'] ['0'] ['0'] ['1']
    ['8', '0', '8', '0'] (by decide) (by decide) (by decide) (by decide) (by decide)
    (by decide) (by decide)

/-- Counterexample for C2: `1.2.3.4:80` occurs inside `a1.2.3.4:80`
adjacent to the non-digit `a` on the left and the end of text on the
right, yet the scan returns nothing — `\b` fails between the word
characters `a` and `1`.  The claim that adjacency to arbitrary non-digit
characters never suppresses a match is therefore false. -/
theorem C2_counterexample :
    find_proxies_in_text "a1.2.3.4:80" = [] ∧
    isDigitC 'a' = false ∧
    find_proxies_in_text "1.2.3.4:80" = ["1.2.3.4:80"] := by
  refine ⟨?_, ?_, ?_⟩ <;> decide

/-! ## Claim C1: `.json` extraction -/

/-- Claim C1: for a file whose inferred kind is `json`, a successful parse
yields exactly the structured traversal's findings — whatever the raw body
contains, with no fallback — and a failed parse yields exactly the raw-text
scan of the body. -/
theorem C1_json_extraction (file_url content : String) (xmlResult : Option XmlElement)
    (h : strEndsWith file_url ".json" = true) :
    (∀ v : PyJson, fetch_parse_body file_url content (some v) xmlResult =
      parse_json_recursively v) ∧
    fetch_parse_body file_url content none xmlResult = find_proxies_in_text content := by
  constructor
  · intro v
    simp [fetch_parse_body, h]
  · simp [fetch_parse_body, h]

/-- Witness for C1: a validly-parsed empty JSON object yields no tokens
even though the raw body contains one (no fallback on success), and an
unparsable body falls back to the raw-text scan which recovers the
token. -/
theorem C1_json_extraction_witness :
    fetch_parse_body "a.json" "1.2.3.4:80" (some (PyJson.obj [])) none =
      parse_json_recursively (PyJson.obj []) ∧
    parse_json_recursively (PyJson.obj []) = [] ∧
    fetch_parse_body "a.json" "oops 1.2.3.4:80" none none =
      find_proxies_in_text "oops 1.2.3.4:80" ∧
    find_proxies_in_text "oops 1.2.3.4:80" = ["1.2.3.4:80"] :=
  ⟨(C1_json_extraction "a.json" "1.2.3.4:80" none (by decide)).1 (PyJson.obj []),
   by simp [parse_json_recursively, parse_json_fields],
   (C1_json_extraction "a.json" "oops 1.2.3.4:80" none (by decide)).2,
   by decide⟩

/-! ## Claims C5 and C10: XML traversal -/

/-- The list traversal `parse_xml_children` is the flattened map of the traversal over the
children, in document order. -/
theorem parse_xml_children_eq_join (children : List XmlElement) :
    parse_xml_children children = (children.map parse_xml_recursively).flatten := by
  induction children with
  | nil => simp [parse_xml_children]
  | cons e rest ih => simp [parse_xml_children, ih]

/-- Claim C5: the traversal of an element scans its direct text content and
then recurses into each child in document order; the attributes have no
influence on the result. -/
theorem C5_xml_traversal (tag : String) (attrs attrs2 : List (String × String))
    (text : Option String) (children : List XmlElement) (tail : Option String) :
    parse_xml_recursively (.elem tag attrs text children tail) =
      (match text with
       | some t => if t = "" then [] else find_proxies_in_text t
       | none => []) ++ (children.map parse_xml_recursively).flatten ∧
    parse_xml_recursively (.elem tag attrs text children tail) =
      parse_xml_recursively (.elem tag attrs2 text children tail) := by
  constructor
  · rw [← parse_xml_children_eq_join]
    simp only [parse_xml_recursively]
  · simp only [parse_xml_recursively]

mutual

theorem eraseTails_parse : ∀ e : XmlElement,
    parse_xml_recursively (eraseTails e) = parse_xml_recursively e
  | .elem tag attrs text children tail => by
    rw [eraseTails]
    simp only [parse_xml_recursively]
    rw [eraseTailsList_parse children]

theorem eraseTailsList_parse : ∀ es : List XmlElement,
    parse_xml_children (eraseTailsList es) = parse_xml_children es
  | [] => rfl
  | e :: rest => by
    rw [eraseTailsList]
    simp only [parse_xml_children]
    rw [eraseTails_parse e, eraseTailsList_parse rest]

end

/-- Claim C10: erasing every tail text from a document does not change the
extraction result — tail text is never scanned — and in particular a token
living only in a tail is absent from the result even though the raw-text
scanner would find it. -/
theorem C10_tail_text_ignored :
    (∀ e : XmlElement, parse_xml_recursively (eraseTails e) = parse_xml_recursively e) ∧
    parse_xml_recursively
      (.elem "root" [] none [.elem "child" [] none [] (some "1.2.3.4:80")] none) = [] ∧
    find_proxies_in_text "1.2.3.4:80" = ["1.2.3.4:80"] := by
  refine ⟨eraseTails_parse, ?_, by decide⟩
  simp only [parse_xml_recursively, parse_xml_children]
  rfl

/-! ## Claims C4 and C9: aggregation -/

theorem mem_main_agg_aux :
    ∀ (l : List (Finset String)) (init : Finset String) (a : String),
      a ∈ l.foldl (fun acc r => acc ∪ r) init ↔ a ∈ init ∨ ∃ s ∈ l, a ∈ s := by
  intro l
  induction l with
  | nil =>
    intro init a
    simp
  | cons x rest ih =>
    intro init a
    rw [List.foldl_cons, ih]
    simp [Finset.mem_union]
    tauto

theorem mem_process_agg_aux :
    ∀ (l : List (List String)) (init : Finset String) (a : String),
      a ∈ l.foldl (fun acc ps => acc ∪ ps.toFinset) init ↔ a ∈ init ∨ ∃ f ∈ l, a ∈ f := by
  intro l
  induction l with
  | nil =>
    intro init a
    simp
  | cons x rest ih =>
    intro init a
    rw [List.foldl_cons, ih]
    simp [Finset.mem_union]
    tauto

theorem mem_main_agg {l : List (Finset String)} {a : String} :
    a ∈ main_agg l ↔ ∃ s ∈ l, a ∈ s := by
  rw [main_agg, mem_main_agg_aux]
  simp

theorem mem_process_agg {fs : List (List String)} {a : String} :
    a ∈ process_repository_agg fs ↔ ∃ f ∈ fs, a ∈ f := by
  rw [process_repository_agg, mem_process_agg_aux]
  simp

theorem mem_full_aggregate {rs : List (List (List String))} {a : String} :
    a ∈ main_agg (rs.map process_repository_agg) ↔ ∃ fs ∈ rs, ∃ f ∈ fs, a ∈ f := by
  rw [mem_main_agg]
  constructor
  · rintro ⟨s, hs, ha⟩
    obtain ⟨fs, hfs, rfl⟩ := List.mem_map.mp hs
    exact ⟨fs, hfs, mem_process_agg.mp ha⟩
  · rintro ⟨fs, hfs, f, hf, ha⟩
    exact ⟨process_repository_agg fs, List.mem_map_of_mem _ hfs,
      mem_process_agg.mpr ⟨f, hf, ha⟩⟩

/-- Claim C4: the global collection after a full run is the duplicate-free
union of every file's token set across all repositories, independent of
the order in which per-repository or per-file results are merged, and the
emitted output is exactly that set, lexically sorted. -/
theorem C4_global_union (repos repos2 : List (List (List String)))
    (hperm : repos2.Perm repos) :
    main_agg (repos2.map process_repository_agg) =
      main_agg (repos.map process_repository_agg) ∧
    (∀ a : String, a ∈ main_agg (repos.map process_repository_agg) ↔
      ∃ fs ∈ repos, ∃ f ∈ fs, a ∈ f) ∧
    (∀ fs fs2 : List (List String), fs2.Perm fs →
      process_repository_agg fs2 = process_repository_agg fs) ∧
    (sortedOutput (main_agg (repos.map process_repository_agg))).Sorted
      (fun a b => a ≤ b) ∧
    (∀ a : String, a ∈ sortedOutput (main_agg (repos.map process_repository_agg)) ↔
      a ∈ main_agg (repos.map process_repository_agg)) := by
  refine ⟨?_, fun a => mem_full_aggregate, ?_, ?_, ?_⟩
  · ext a
    rw [mem_full_aggregate, mem_full_aggregate]
    constructor
    · rintro ⟨fs, hfs, hrest⟩
      exact ⟨fs, hperm.mem_iff.mp hfs, hrest⟩
    · rintro ⟨fs, hfs, hrest⟩
      exact ⟨fs, hperm.mem_iff.mpr hfs, hrest⟩
  · intro fs fs2 hp
    ext a
    rw [mem_process_agg, mem_process_agg]
    constructor
    · rintro ⟨f, hf, ha⟩
      exact ⟨f, hp.mem_iff.mp hf, ha⟩
    · rintro ⟨f, hf, ha⟩
      exact ⟨f, hp.mem_iff.mpr hf, ha⟩
  · rw [sortedOutput]
    exact Finset.sort_sorted _ _
  · intro a
    rw [sortedOutput]
    exact Finset.mem_sort _

/-- Witness for C4: swapping the completion order of two repositories
leaves the global collection unchanged. -/
theorem C4_global_union_witness :
    main_agg ([[["2.2.2.2:2"]], [["1.1.1.1:1"]]].map process_repository_agg) =
      main_agg ([[["1.1.1.1:1"]], [["2.2.2.2:2"]]].map process_repository_agg) :=
  (C4_global_union [[["1.1.1.1:1"]], [["2.2.2.2:2"]]] [[["2.2.2.2:2"]], [["1.1.1.1:1"]]]
    (by decide)).1

theorem mem_zipWith_repoRun {repos : List (List (List String))} {cuts : List Nat}
    {s : Finset String} (h : s ∈ List.zipWith repoRunTokens repos cuts) :
    ∃ fs ∈ repos, ∃ cut, s = repoRunTokens fs cut := by
  induction repos generalizing cuts with
  | nil => simp at h
  | cons fs rest ih =>
    cases cuts with
    | nil => simp at h
    | cons cut cuts2 =>
      rw [List.zipWith_cons_cons] at h
      rcases List.mem_cons.mp h with rfl | h2
      · exact ⟨fs, by simp, cut, rfl⟩
      · obtain ⟨fs2, hfs2, cut2, rfl⟩ := ih h2
        exact ⟨fs2, by simp [hfs2], cut2, rfl⟩

/-- Claim C9: an interrupted run's collection is a subset (never a superset)
of the uninterrupted run's collection, and the interrupted run still emits
exactly the tokens accumulated up to the interruption, lexically sorted. -/
theorem C9_interruption (repos : List (List (List String))) (fileCuts : List Nat)
    (mainCut : Nat) :
    runCollected repos fileCuts mainCut ⊆ fullCollected repos ∧
    (∀ a : String, a ∈ sortedOutput (runCollected repos fileCuts mainCut) ↔
      a ∈ runCollected repos fileCuts mainCut) ∧
    (sortedOutput (runCollected repos fileCuts mainCut)).Sorted (fun a b => a ≤ b) := by
  refine ⟨?_, ?_, ?_⟩
  · intro a ha
    rw [runCollected, mem_main_agg] at ha
    obtain ⟨s, hs, has⟩ := ha
    have hs2 := List.mem_of_mem_take hs
    obtain ⟨fs, hfs, cut, rfl⟩ := mem_zipWith_repoRun hs2
    rw [repoRunTokens, mem_process_agg] at has
    obtain ⟨f, hf, haf⟩ := has
    have hf2 := List.mem_of_mem_take hf
    rw [fullCollected, mem_full_aggregate]
    exact ⟨fs, hfs, f, hf2, haf⟩
  · intro a
    rw [sortedOutput]
    exact Finset.mem_sort _
  · rw [sortedOutput]
    exact Finset.sort_sorted _ _

/-! ## Claims C6, C7 and C8: repository resolution -/

/-- A JSON value is a string. -/
def isStrVal : PyJson → Bool
  | .str _ => true
  | _ => false

/-- The body of a successfully parsed API response is a JSON object
(GitHub's actual shape); failed or unparsable responses are
unconstrained. -/
def isObjOk : HttpOutcome (Option PyJson) → Bool
  | .ok (some (.obj _)) => true
  | .ok (some _) => false
  | _ => true

/-- A tree entry the Python loop can process without raising: a dict whose
path (defaulting to `''`) is a string whenever its type is `'blob'`. -/
def goodTreeItem : PyJson → Bool
  | .obj fields =>
    if pyEqStr (fields.lookup "type") "blob" then
      isStrVal ((fields.lookup "path").getD (PyJson.str ""))
    else true
  | _ => false

/-- A tree response the Python loop can process without raising: on
success its body is an object whose `tree` field (defaulting to `[]`) is a
list of processable entries. -/
def goodTreeResp : HttpOutcome (Option PyJson) → Bool
  | .ok (some (.obj fields)) =>
    match (fields.lookup "tree").getD (PyJson.arr []) with
    | .arr items => items.all goodTreeItem
    | _ => false
  | .ok (some _) => false
  | _ => true

/-- The raw `default_branch` value that resolution will observe. -/
def branchValOf : HttpOutcome (Option PyJson) → Option PyJson
  | .ok (some (.obj fields)) => fields.lookup "default_branch"
  | _ => none

/-- A response that did not deliver a parsed JSON body. -/
def respFailed : HttpOutcome (Option PyJson) → Bool
  | .ok (some _) => false
  | _ => true

theorem isStrVal_elim {v : PyJson} (h : isStrVal v = true) : ∃ s, v = PyJson.str s := by
  cases v with
  | str s => exact ⟨s, rfl⟩
  | obj fields => simp [isStrVal] at h
  | arr items => simp [isStrVal] at h
  | num n => simp [isStrVal] at h
  | bool b => simp [isStrVal] at h
  | null => simp [isStrVal] at h

theorem goodTreeItem_obj {it : PyJson} (h : goodTreeItem it = true) :
    ∃ fields, it = PyJson.obj fields := by
  cases it with
  | obj fields => exact ⟨fields, rfl⟩
  | str s => simp [goodTreeItem] at h
  | arr items => simp [goodTreeItem] at h
  | num n => simp [goodTreeItem] at h
  | bool b => simp [goodTreeItem] at h
  | null => simp [goodTreeItem] at h

/-- The tree loop never raises on a list of processable entries. -/
theorem treeLoop_ok {user repo branch : String} {items : List PyJson}
    (h : ∀ it ∈ items, goodTreeItem it = true) :
    ∃ files, treeLoop user repo branch items = .ok files := by
  induction items with
  | nil => exact ⟨[], rfl⟩
  | cons item rest ih =>
    obtain ⟨files, hfiles⟩ := ih (fun it hit => h it (by simp [hit]))
    have hitem := h item (by simp)
    obtain ⟨fields, rfl⟩ := goodTreeItem_obj hitem
    rw [treeLoop]
    simp only [pyGet]
    by_cases hty : pyEqStr (fields.lookup "type") "blob" = true
    · rw [if_pos hty]
      rw [goodTreeItem, if_pos hty] at hitem
      obtain ⟨path, hpath⟩ := isStrVal_elim hitem
      rw [hpath]
      by_cases hext : endsWithKnownExt path = true
      · exact ⟨rawUrl user repo branch path :: files, by simp [hext, hfiles]⟩
      · exact ⟨files, by simp [hext, hfiles]⟩
    · rw [if_neg hty]
      exact ⟨files, hfiles⟩

/-- The branch lookup `get_default_branch` returns the raw field value and reports a message
whenever the response failed; it never raises on object-shaped bodies. -/
theorem get_default_branch_ok {user repo : String} {resp : HttpOutcome (Option PyJson)}
    (h : isObjOk resp = true) :
    ∃ msgs, get_default_branch user repo resp = .ok (branchValOf resp, msgs) ∧
      (respFailed resp = true → msgs ≠ []) := by
  cases resp with
  | ok body =>
    cases body with
    | none => exact ⟨[jsonDecodeMsg user repo], rfl, fun _ => by simp⟩
    | some v =>
      cases v with
      | obj fields => exact ⟨[], rfl, fun hf => by simp [respFailed] at hf⟩
      | arr items => simp [isObjOk] at h
      | str s => simp [isObjOk] at h
      | num n => simp [isObjOk] at h
      | bool b => simp [isObjOk] at h
      | null => simp [isObjOk] at h
  | httpError code => exact ⟨[apiErrorMsg user repo], rfl, fun _ => by simp⟩
  | netError m => exact ⟨[apiErrorMsg user repo], rfl, fun _ => by simp⟩

/-- Claim C6, amended: for responses whose parsed bodies have the shapes
the remote API actually produces (objects, with a list-of-objects `tree`
field), resolution never throws; on any failure — malformed URL, failed or
unparsable metadata response, missing/falsy branch, failed or unparsable
tree response — it returns an empty file list and a non-empty message list
on the progress side-channel.  A top-level non-object JSON body, however,
makes resolution raise (see the counterexample). -/
theorem C6_resolution_never_throws (repo_url : String)
    (metaResp treeResp : HttpOutcome (Option PyJson))
    (hm : isObjOk metaResp = true) (ht : goodTreeResp treeResp = true) :
    (∃ files msgs, get_files_from_repo false repo_url metaResp treeResp = .ok (files, msgs)) ∧
    ((pySegments repo_url).length < 2 →
      get_files_from_repo false repo_url metaResp treeResp =
        .ok ([], [invalidURLMsg repo_url])) ∧
    (2 ≤ (pySegments repo_url).length →
      pyTruthyOpt (branchValOf metaResp) = false →
      ∃ msgs, get_files_from_repo false repo_url metaResp treeResp = .ok ([], msgs) ∧
        msgs ≠ []) ∧
    (2 ≤ (pySegments repo_url).length → respFailed treeResp = true →
      ∃ files msgs, get_files_from_repo false repo_url metaResp treeResp =
        .ok (files, msgs) ∧ files = [] ∧ msgs ≠ []) := by
  by_cases hlen : (pySegments repo_url).length < 2
  · have heq : get_files_from_repo false repo_url metaResp treeResp =
        .ok ([], [invalidURLMsg repo_url]) := by
      simp [get_files_from_repo, hlen]
    refine ⟨⟨[], [invalidURLMsg repo_url], heq⟩, fun _ => heq, ?_, ?_⟩
    · intro h2 _
      exact absurd h2 (by omega)
    · intro h2 _
      exact absurd h2 (by omega)
  · obtain ⟨msgs1, hdb, hmsgs1⟩ :=
      @get_default_branch_ok (urlUser repo_url) (urlRepo repo_url) metaResp hm
    by_cases hbt : pyTruthyOpt (branchValOf metaResp) = true
    · have hmain : ∃ files msgs,
          get_files_from_repo false repo_url metaResp treeResp = .ok (files, msgs) ∧
          (respFailed treeResp = true → files = [] ∧ msgs ≠ []) := by
        cases treeResp with
        | netError m =>
          refine ⟨[], msgs1 ++ [apiFilesMsg (urlUser repo_url) (urlRepo repo_url)], ?_, ?_⟩
          · simp [get_files_from_repo, hlen, hdb, hbt]
          · intro _
            exact ⟨rfl, by simp⟩
        | httpError code =>
          refine ⟨[], msgs1 ++ [apiFilesMsg (urlUser repo_url) (urlRepo repo_url)], ?_, ?_⟩
          · simp [get_files_from_repo, hlen, hdb, hbt]
          · intro _
            exact ⟨rfl, by simp⟩
        | ok body =>
          cases body with
          | none =>
            refine ⟨[], msgs1 ++ [jsonDecodeMsg (urlUser repo_url) (urlRepo repo_url)], ?_, ?_⟩
            · simp [get_files_from_repo, hlen, hdb, hbt]
            · intro _
              exact ⟨rfl, by simp⟩
          | some v =>
            cases v with
            | obj tf =>
              cases hdv : (tf.lookup "tree").getD (PyJson.arr []) with
              | arr items =>
                rw [goodTreeResp, hdv] at ht
                simp only [List.all_eq_true] at ht
                obtain ⟨files, hfl⟩ :=
                  @treeLoop_ok (urlUser repo_url) (urlRepo repo_url)
                    (pyToStr ((branchValOf metaResp).getD PyJson.null)) items ht
                refine ⟨files, msgs1 ++
                  (if pyTruthyOpt (tf.lookup "truncated") = true then
                    [truncatedMsg (urlUser repo_url) (urlRepo repo_url)] else []), ?_, ?_⟩
                · simp [get_files_from_repo, hlen, hdb, hbt, pyGet, pyIterate, hdv, hfl]
                · intro hf
                  simp [respFailed] at hf
              | obj tf2 =>
                rw [goodTreeResp, hdv] at ht
                simp at ht
              | str s =>
                rw [goodTreeResp, hdv] at ht
                simp at ht
              | num n =>
                rw [goodTreeResp, hdv] at ht
                simp at ht
              | bool b =>
                rw [goodTreeResp, hdv] at ht
                simp at ht
              | null =>
                rw [goodTreeResp, hdv] at ht
                simp at ht
            | arr items => simp [goodTreeResp] at ht
            | str s => simp [goodTreeResp] at ht
            | num n => simp [goodTreeResp] at ht
            | bool b => simp [goodTreeResp] at ht
            | null => simp [goodTreeResp] at ht
      obtain ⟨files, msgs, heq, hfail⟩ := hmain
      refine ⟨⟨files, msgs, heq⟩, fun h2 => absurd h2 hlen, ?_, ?_⟩
      · intro _ hf
        rw [hbt] at hf
        simp at hf
      · intro _ hf
        obtain ⟨hfe, hne⟩ := hfail hf
        exact ⟨files, msgs, heq, hfe, hne⟩
    · have hbf : pyTruthyOpt (branchValOf metaResp) = false := by
        cases hx : pyTruthyOpt (branchValOf metaResp) with
        | false => rfl
        | true => exact absurd hx hbt
      have heq : get_files_from_repo false repo_url metaResp treeResp =
          .ok ([], msgs1 ++ [noBranchMsg (urlUser repo_url) (urlRepo repo_url)]) := by
        simp [get_files_from_repo, hlen, hdb, hbf]
      refine ⟨⟨_, _, heq⟩, fun h2 => absurd h2 hlen, ?_, ?_⟩
      · intro _ _
        exact ⟨_, heq, by simp⟩
      · intro _ _
        exact ⟨[], _, heq, rfl, by simp⟩

/-- Witness for C6: a malformed URL with unreachable endpoints resolves to
an empty file list with the invalid-URL message, without throwing. -/
theorem C6_resolution_witness :
    get_files_from_repo false "github.com" (HttpOutcome.netError "down")
        (HttpOutcome.netError "down") = .ok ([], [invalidURLMsg "github.com"]) :=
  (C6_resolution_never_throws "github.com" (HttpOutcome.netError "down")
    (HttpOutcome.netError "down") rfl rfl).2.1 (by decide)

/-- Counterexample for C6: a metadata response whose body parses to a JSON
*array* makes `repo_info.get('default_branch')` raise `AttributeError`,
which the source only shields against `RequestException` and
`JSONDecodeError`; resolution therefore throws instead of returning an
empty sequence, refuting "never throws" for arbitrary malformed bodies. -/
theorem C6_counterexample :
    get_files_from_repo false "https://github.com/a/b"
        (HttpOutcome.ok (some (PyJson.arr []))) (HttpOutcome.ok none) =
      .error "AttributeError" := by
  rfl

/-- A file environment in which every fetch fails; used to witness that a
rejected URL consults no response at all. -/
def noFileEnv : FileEnv := fun _ => (HttpOutcome.netError "unreachable", none, none)

/-- Claim C7, amended: a URL splitting into fewer than two slash-separated
segments is rejected before any network call — the unpacking at source
line 144 raises `ValueError` whatever the remote responses would have
been — and the scheduler's handler turns that into an empty contribution,
so the run does not crash.  (A URL with two segments of which one is
*empty*, such as `x//y`, is *not* rejected — see the counterexample.) -/
theorem C7_short_url_rejected (repo_url : String)
    (h : (pySegments repo_url).length < 2) :
    (∀ (metaResp treeResp : HttpOutcome (Option PyJson)) (env : FileEnv),
      process_repository false repo_url metaResp treeResp env = .error "ValueError") ∧
    (∀ (metaResp treeResp : HttpOutcome (Option PyJson)) (env : FileEnv),
      schedulerContribution (process_repository false repo_url metaResp treeResp env) = ∅) := by
  have hun : unpackLastTwo (pySegments repo_url) = .error "ValueError" := by
    rw [unpackLastTwo, if_pos h]
  have hpr : ∀ (metaResp treeResp : HttpOutcome (Option PyJson)) (env : FileEnv),
      process_repository false repo_url metaResp treeResp env = .error "ValueError" := by
    intro metaResp treeResp env
    simp [process_repository, hun]
  refine ⟨hpr, ?_⟩
  intro metaResp treeResp env
  rw [hpr metaResp treeResp env]
  rfl

/-- Witness for C7: a bare hostname is rejected with a `ValueError` that
the scheduler absorbs into an empty contribution. -/
theorem C7_short_url_witness :
    process_repository false "github.com" (HttpOutcome.netError "down")
        (HttpOutcome.netError "down") noFileEnv = .error "ValueError" ∧
    schedulerContribution
      (process_repository false "github.com" (HttpOutcome.netError "down")
        (HttpOutcome.netError "down") noFileEnv) = ∅ :=
  ⟨(C7_short_url_rejected "github.com" (by decide)).1 _ _ noFileEnv,
   (C7_short_url_rejected "github.com" (by decide)).2 _ _ noFileEnv⟩

/-- Counterexample for C7: from `x//y` two *non-empty* owner/name segments
cannot be parsed (the owner slot is empty), yet the URL is not rejected:
resolution proceeds to the network — with reachable endpoints it even
returns a file URL, and with unreachable ones it reports an API error for
owner `""` — contradicting "rejected before any network call is made". -/
theorem C7_counterexample :
    pySegments "x//y" = ["x", "", "y"] ∧
    get_files_from_repo false "x//y"
        (HttpOutcome.ok (some (PyJson.obj [("default_branch", PyJson.str "main")])))
        (HttpOutcome.ok (some (PyJson.obj [("tree",
          PyJson.arr [PyJson.obj [("type", PyJson.str "blob"),
            ("path", PyJson.str "a.txt")]])])))
      = .ok (["https://raw.githubusercontent.com//y/main/a.txt"], []) ∧
    get_files_from_repo false "x//y" (HttpOutcome.netError "down")
        (HttpOutcome.netError "down")
      = .ok ([], [apiErrorMsg "" "y", noBranchMsg "" "y"]) := by
  refine ⟨?_, ?_, ?_⟩ <;> rfl

/-- The JSON encoding of a tree entry `(type, path)` as returned by the
tree-listing endpoint. -/
def encodeTreeEntry (e : String × String) : PyJson :=
  PyJson.obj [("type", PyJson.str e.1), ("path", PyJson.str e.2)]

/-- The filter of source line 129: regular files (`blob`) whose path ends
in `.txt`, `.json` or `.xml`. -/
def keepEntry (e : String × String) : Bool :=
  e.1 == "blob" && endsWithKnownExt e.2

/-- The tree loop on encoded entries is exactly filter-then-build. -/
theorem treeLoop_encoded (user repo branch : String)
    (entries : List (String × String)) :
    treeLoop user repo branch (entries.map encodeTreeEntry) =
      .ok ((entries.filter keepEntry).map (fun e => rawUrl user repo branch e.2)) := by
  induction entries with
  | nil => rfl
  | cons e rest ih =>
    obtain ⟨ty, path⟩ := e
    have hl1 : pyGet (encodeTreeEntry (ty, path)) "type" = .ok (some (PyJson.str ty)) := by
      simp [encodeTreeEntry, pyGet, List.lookup]
    have hl2 : pyGet (encodeTreeEntry (ty, path)) "path" = .ok (some (PyJson.str path)) := by
      simp [encodeTreeEntry, pyGet, List.lookup]
    by_cases hb : pyEqStr (some (PyJson.str ty)) "blob" = true
    · have hbe : (ty == "blob") = true := by simpa [pyEqStr] using hb
      by_cases he : endsWithKnownExt path = true
      · have hkeep : keepEntry (ty, path) = true := by simp [keepEntry, hbe, he]
        rw [List.map_cons, treeLoop]
        simp [hl1, hl2, hb, he, ih, List.filter_cons, hkeep]
      · have hkeep : keepEntry (ty, path) = false := by simp [keepEntry, hbe, he]
        rw [List.map_cons, treeLoop]
        simp [hl1, hl2, hb, he, ih, List.filter_cons, hkeep]
    · have hbe : (ty == "blob") = false := by
        cases hx : ty == "blob" with
        | false => rfl
        | true => exact absurd (by simp [pyEqStr, hx]) hb
      have hkeep : keepEntry (ty, path) = false := by simp [keepEntry, hbe]
      rw [List.map_cons, treeLoop]
      simp [hl1, hb, ih, List.filter_cons, hkeep]

/-- Claim C8: from a tree listing of `(type, path)` entries, exactly the
`blob` entries whose path ends in `.txt`, `.json` or `.xml` are kept and
turned into raw-content URLs built from owner, name, branch and path; a
truthy `truncated` flag only adds a warning message and the files are
still produced. -/
theorem C8_tree_filtering (repo_url branch : String)
    (metaFields treeFields : List (String × PyJson))
    (entries : List (String × String))
    (hlen : 2 ≤ (pySegments repo_url).length)
    (hbranch : metaFields.lookup "default_branch" = some (PyJson.str branch))
    (hbr : branch ≠ "")
    (htree : treeFields.lookup "tree" = some (PyJson.arr (entries.map encodeTreeEntry))) :
    get_files_from_repo false repo_url
        (HttpOutcome.ok (some (PyJson.obj metaFields)))
        (HttpOutcome.ok (some (PyJson.obj treeFields))) =
      .ok ((entries.filter keepEntry).map
          (fun e => rawUrl (urlUser repo_url) (urlRepo repo_url) branch e.2),
        if pyTruthyOpt (treeFields.lookup "truncated") = true then
          [truncatedMsg (urlUser repo_url) (urlRepo repo_url)] else []) := by
  have hnl : ¬(pySegments repo_url).length < 2 := by omega
  have hdb : get_default_branch (urlUser repo_url) (urlRepo repo_url)
      (HttpOutcome.ok (some (PyJson.obj metaFields))) =
      .ok (some (PyJson.str branch), []) := by
    simp [get_default_branch, pyGet, hbranch]
  have hbt : pyTruthyOpt (some (PyJson.str branch)) = true := by
    simp [pyTruthyOpt, pyTruthy]
    exact hbr
  simp [get_files_from_repo, hnl, hdb, hbt, pyGet, pyToStr, pyIterate, htree,
    treeLoop_encoded]

/-- Witness for C8: a listing with a truncated flag and four entries keeps
exactly the two `blob` entries with recognized extensions and surfaces the
truncation warning. -/
theorem C8_tree_filtering_witness :
    get_files_from_repo false "https://github.com/u/r"
        (HttpOutcome.ok (some (PyJson.obj [("default_branch", PyJson.str "main")])))
        (HttpOutcome.ok (some (PyJson.obj
          [("truncated", PyJson.bool true),
           ("tree", PyJson.arr
             [encodeTreeEntry ("blob", "a.txt"), encodeTreeEntry ("tree", "d"),
              encodeTreeEntry ("blob", "x.bin"), encodeTreeEntry ("blob", "b.json")])])))
      = .ok (["https://raw.githubusercontent.com/u/r/main/a.txt",
              "https://raw.githubusercontent.com/u/r/main/b.json"],
             ["Warning: File list for u/r is truncated"]) := by
  have h := C8_tree_filtering "https://github.com/u/r" "main"
    [("default_branch", PyJson.str "main")]
    [("truncated", PyJson.bool true),
     ("tree", PyJson.arr
       [encodeTreeEntry ("blob", "a.txt"), encodeTreeEntry ("tree", "d"),
        encodeTreeEntry ("blob", "x.bin"), encodeTreeEntry ("blob", "b.json")])]
    [("blob", "a.txt"), ("tree", "d"), ("blob", "x.bin"), ("blob", "b.json")]
    (by decide) rfl (by decide) rfl
  rw [h]
  rfl

end PGScraper
